import Mathlib

/-!
# Verification of the archive-ingestion and run-bookkeeping core

Shallow embedding, in Lean 4, of the safety-critical core of the
`allure3-docker-service` repository (`src/unzip.rs`, `src/storage.rs`,
`src/util.rs`, `src/handlers/api.rs`), together with proofs of the
specification's claims about it.

Modelling conventions:
* Rust `u64`/`usize` values are `Nat` with explicit `% 2^64` (wrapping add)
  or saturation at `2^64 - 1` (`saturating_add`) exactly where the source
  uses those operations.
* Rust strings are Lean `String`s; where the source operates on bytes
  (`str::len`, `as_bytes`) we encode explicitly to UTF-8 byte lists.
* Filesystem paths are lists of path components (`List String`); joining is
  list append, `PathBuf::pop` is `List.dropLast`.
* Filesystem effects are recorded in an explicit log / store; the
  temp-file-plus-atomic-rename write pattern of `storage.rs` is modelled as
  an atomic replacement of the file's content in the store.
* The external decompressor (the `zip` crate) is modelled at its interface:
  an archive is a list of entries, each carrying the stored name, the
  directory flag, the header-declared size and the actual decompressed
  size; reading streams the actual bytes in chunks of at most 64 KiB, as
  the 64 KiB buffer in `unzip_safely_blocking` does.
* The external renderer (`allure.rs`) and the JSON codec (`serde_json`) are
  collaborators: the renderer is a `Except String Unit` parameter, JSON is
  modelled at the value level by an inductive type.
-/

/-! ## Decimal formatting and parsing (model of Rust `u64::to_string` and
`str::parse::<u64>` / `str::trim`) -/

/-- The decimal digit character for `d < 10` (model of the formatter's
digit table). -/
def rustDigitChar : Nat → Char
  | 0 => '0'
  | 1 => '1'
  | 2 => '2'
  | 3 => '3'
  | 4 => '4'
  | 5 => '5'
  | 6 => '6'
  | 7 => '7'
  | 8 => '8'
  | 9 => '9'
  | _ => '*'

/-- Digit-producing loop (fuel-based structural recursion; with fuel at
least the digit count it peels the least significant digit first, as the
formatter's loop does). -/
def natToDigitsCore : Nat → Nat → List Char → List Char
  | 0, _, acc => acc
  | fuel + 1, n, acc =>
    if n < 10 then rustDigitChar n :: acc
    else natToDigitsCore fuel (n / 10) (rustDigitChar (n % 10) :: acc)

/-- Decimal digit characters of a natural number, most significant first
(model of Rust's `u64` `Display`). -/
def natToDigits (n : Nat) : List Char := natToDigitsCore (n + 1) n []

/-- Model of Rust `u64::to_string`. -/
def u64ToString (n : Nat) : String := ⟨natToDigits n⟩

/-- Decode a digit string back to a number, as `str::parse` accumulates. -/
def decodeDigits (cs : List Char) : Nat :=
  cs.foldl (fun a c => a * 10 + (c.toNat - 48)) 0

/-- 2^64, the number of `u64` values. -/
def U64SIZE : Nat := 18446744073709551616

/-- Model of Rust `str::parse::<u64>` on a character list: an optional
leading `+`, then one or more ASCII digits, value below `2^64`. -/
def rustParseU64Chars (cs : List Char) : Option Nat :=
  let cs := if cs.head? = some '+' then cs.tail else cs
  if cs.isEmpty then none
  else if cs.all Char.isDigit then
    let v := decodeDigits cs
    if v < U64SIZE then some v else none
  else none

/-- Model of Rust `str::parse::<u64>`. -/
def rustParseU64 (s : String) : Option Nat := rustParseU64Chars s.data

/-- Model of Rust `str::trim` on a character list: strip whitespace from
both ends. -/
def rustTrimChars (cs : List Char) : List Char :=
  ((cs.dropWhile Char.isWhitespace).reverse.dropWhile Char.isWhitespace).reverse

/-- Model of Rust `str::trim`. -/
def rustTrim (s : String) : String := ⟨rustTrimChars s.data⟩

/-! ## UTF-8 encoding (for the byte-level checks `str::len` and
`as_bytes()[1]` in the source) -/

/-- UTF-8 encoding of one scalar value, as a list of byte values. -/
def utf8Enc (c : Char) : List Nat :=
  let n := c.toNat
  if n < 128 then [n]
  else if n < 2048 then [192 + n / 64, 128 + n % 64]
  else if n < 65536 then [224 + n / 4096, 128 + (n / 64) % 64, 128 + n % 64]
  else [240 + n / 262144, 128 + (n / 4096) % 64, 128 + (n / 64) % 64, 128 + n % 64]

/-- UTF-8 bytes of a character list (model of Rust `str::as_bytes`). -/
def utf8Bytes (cs : List Char) : List Nat := (cs.map utf8Enc).flatten

/-! ## Splitting on `/` (model of Rust `str::split('/')`) -/

/-- `splitOnSlash cs` splits `cs` at every `'/'`, keeping empty pieces,
exactly as Rust's `str::split('/')` iterator does (`"" ↦ [""]`,
`"a/" ↦ ["a", ""]`, `"/a" ↦ ["", "a"]`). -/
def splitOnSlash : List Char → List (List Char)
  | [] => [[]]
  | c :: rest =>
    match splitOnSlash rest with
    | [] => [[]]
    | h :: t => if c = '/' then [] :: h :: t else (c :: h) :: t

/-! ### Basic lemmas about the primitives -/

theorem rustDigitChar_toNat {d : Nat} (h : d < 10) :
    (rustDigitChar d).toNat - 48 = d := by
  interval_cases d <;> rfl

theorem rustDigitChar_isDigit {d : Nat} (h : d < 10) :
    (rustDigitChar d).isDigit = true := by
  interval_cases d <;> rfl

theorem rustDigitChar_not_ws {d : Nat} (h : d < 10) :
    (rustDigitChar d).isWhitespace = false := by
  interval_cases d <;> rfl

theorem rustDigitChar_ne_plus {d : Nat} (h : d < 10) :
    rustDigitChar d ≠ '+' := by
  interval_cases d <;> decide

theorem natToDigitsCore_eq_nil :
    ∀ fuel n acc, natToDigitsCore fuel n acc = [] → acc = [] := by
  intro fuel
  induction fuel with
  | zero => intro n acc h; exact h
  | succ fuel ih =>
    intro n acc h
    by_cases h10 : n < 10
    · simp only [natToDigitsCore, if_pos h10] at h
      cases h
    · simp only [natToDigitsCore, if_neg h10] at h
      have := ih _ _ h
      cases this

theorem natToDigits_ne_nil (n : Nat) : natToDigits n ≠ [] := by
  show natToDigitsCore (n + 1) n [] ≠ []
  by_cases h10 : n < 10
  · simp [natToDigitsCore, h10]
  · simp only [natToDigitsCore, if_neg h10]
    intro hc
    have := natToDigitsCore_eq_nil _ _ _ hc
    cases this

theorem natToDigitsCore_mem :
    ∀ fuel n acc c, c ∈ natToDigitsCore fuel n acc →
      (∃ d, d < 10 ∧ c = rustDigitChar d) ∨ c ∈ acc := by
  intro fuel
  induction fuel with
  | zero => intro n acc c hc; exact Or.inr hc
  | succ fuel ih =>
    intro n acc c hc
    by_cases h10 : n < 10
    · simp only [natToDigitsCore, if_pos h10] at hc
      rcases List.mem_cons.1 hc with rfl | h'
      · exact Or.inl ⟨n, h10, rfl⟩
      · exact Or.inr h'
    · simp only [natToDigitsCore, if_neg h10] at hc
      rcases ih _ _ _ hc with h' | h'
      · exact Or.inl h'
      · rcases List.mem_cons.1 h' with rfl | h''
        · exact Or.inl ⟨n % 10, Nat.mod_lt _ (by omega), rfl⟩
        · exact Or.inr h''

theorem natToDigits_mem {n : Nat} {c : Char} (h : c ∈ natToDigits n) :
    ∃ d, d < 10 ∧ c = rustDigitChar d := by
  rcases natToDigitsCore_mem _ _ _ _ h with h' | h'
  · exact h'
  · cases h'

theorem natToDigitsCore_append :
    ∀ fuel n acc, n < 10 ^ fuel →
      natToDigitsCore fuel n acc = natToDigitsCore fuel n [] ++ acc := by
  intro fuel
  induction fuel with
  | zero =>
    intro n acc h
    have : n = 0 := by simpa using h
    rfl
  | succ fuel ih =>
    intro n acc h
    by_cases h10 : n < 10
    · simp [natToDigitsCore, if_pos h10]
    · have hdiv : n / 10 < 10 ^ fuel := by
        rw [Nat.div_lt_iff_lt_mul (by norm_num)]
        calc n < 10 ^ (fuel + 1) := h
        _ = 10 ^ fuel * 10 := by ring
      simp only [natToDigitsCore, if_neg h10]
      rw [ih _ (rustDigitChar (n % 10) :: acc) hdiv,
        ih _ (rustDigitChar (n % 10) :: ([] : List Char)) hdiv]
      simp

theorem natToDigits_lt_pow (n : Nat) : n < 10 ^ (n + 1) := by
  have h1 : n < 2 ^ n := Nat.lt_two_pow n
  have h2 : 2 ^ n ≤ 10 ^ n := Nat.pow_le_pow_left (by norm_num) n
  have h3 : 10 ^ n < 10 ^ (n + 1) := Nat.pow_lt_pow_succ (by norm_num)
  omega

theorem decodeDigits_natToDigitsCore :
    ∀ fuel n, n < 10 ^ fuel →
      decodeDigits (natToDigitsCore fuel n []) = n := by
  intro fuel
  induction fuel with
  | zero =>
    intro n h
    have : n = 0 := by simpa using h
    subst this
    rfl
  | succ fuel ih =>
    intro n h
    by_cases h10 : n < 10
    · simp only [natToDigitsCore, if_pos h10]
      simp [decodeDigits, rustDigitChar_toNat h10]
    · have hdiv : n / 10 < 10 ^ fuel := by
        rw [Nat.div_lt_iff_lt_mul (by norm_num)]
        calc n < 10 ^ (fuel + 1) := h
        _ = 10 ^ fuel * 10 := by ring
      simp only [natToDigitsCore, if_neg h10]
      rw [natToDigitsCore_append fuel (n / 10) _ hdiv]
      have hrec := ih (n / 10) hdiv
      unfold decodeDigits at hrec ⊢
      rw [List.foldl_append, hrec]
      simp only [List.foldl_cons, List.foldl_nil]
      rw [rustDigitChar_toNat (Nat.mod_lt n (by omega))]
      omega

theorem decodeDigits_natToDigits (n : Nat) :
    decodeDigits (natToDigits n) = n :=
  decodeDigits_natToDigitsCore (n + 1) n (natToDigits_lt_pow n)

theorem dropWhile_eq_self_of_none {p : Char → Bool} {cs : List Char}
    (h : ∀ c ∈ cs, p c = false) : cs.dropWhile p = cs := by
  cases cs with
  | nil => rfl
  | cons c rest =>
    rw [List.dropWhile_cons_of_neg]
    simp [h c (List.mem_cons_self _ _)]

theorem rustTrimChars_digits (n : Nat) :
    rustTrimChars (natToDigits n) = natToDigits n := by
  have hnw : ∀ c ∈ natToDigits n, Char.isWhitespace c = false := by
    intro c hc
    obtain ⟨d, hd, rfl⟩ := natToDigits_mem hc
    exact rustDigitChar_not_ws hd
  unfold rustTrimChars
  rw [dropWhile_eq_self_of_none hnw,
    dropWhile_eq_self_of_none (by intro c hc; exact hnw c (List.mem_reverse.1 hc)),
    List.reverse_reverse]

theorem rustParseU64Chars_natToDigits {n : Nat} (h : n < U64SIZE) :
    rustParseU64Chars (natToDigits n) = some n := by
  have hne := natToDigits_ne_nil n
  have hhead : (natToDigits n).head? ≠ some '+' := by
    cases hd : natToDigits n with
    | nil => simp
    | cons c rest =>
      simp only [List.head?_cons, ne_eq, Option.some.injEq]
      have : c ∈ natToDigits n := by rw [hd]; exact List.mem_cons_self _ _
      obtain ⟨d, hdlt, rfl⟩ := natToDigits_mem this
      exact rustDigitChar_ne_plus hdlt
  have hdig : (natToDigits n).all Char.isDigit = true := by
    rw [List.all_eq_true]
    intro c hc
    obtain ⟨d, hd, rfl⟩ := natToDigits_mem hc
    exact rustDigitChar_isDigit hd
  unfold rustParseU64Chars
  simp only [if_neg hhead]
  rw [if_neg (by simpa [List.isEmpty_iff] using hne), if_pos hdig,
    decodeDigits_natToDigits, if_pos h]

/-- Round trip: a `u64` written with `to_string` reads back with
`trim`-then-`parse`. -/
theorem parse_trim_u64ToString {n : Nat} (h : n < U64SIZE) :
    rustParseU64 (rustTrim (u64ToString n)) = some n := by
  show rustParseU64Chars (rustTrimChars (natToDigits n)) = some n
  rw [rustTrimChars_digits, rustParseU64Chars_natToDigits h]

/-- Round trip without trimming (`list_run_ids` parses without `trim`). -/
theorem parse_u64ToString {n : Nat} (h : n < U64SIZE) :
    rustParseU64 (u64ToString n) = some n := by
  show rustParseU64Chars (natToDigits n) = some n
  exact rustParseU64Chars_natToDigits h

/-! ## Archive extractor (model of `src/unzip.rs`) -/

/-- Extraction limits (`UnzipLimits` in `unzip.rs`). -/
structure UnzipLimits where
  max_files : Nat
  max_total_uncompressed : Nat
  max_single_file : Nat
deriving DecidableEq

/-- The `Default` instance of `UnzipLimits`. -/
def UnzipLimits.default : UnzipLimits :=
  { max_files := 10000
    max_total_uncompressed := 2 * 1024 * 1024 * 1024
    max_single_file := 512 * 1024 * 1024 }

/-- The error cases `unzip_safely_blocking` and `sanitize_zip_entry_path`
bail with (each constructor stands for one `anyhow::bail!` site, carrying
the data interpolated into the message). -/
inductive ZipError where
  | tooManyFiles (limit : Nat)
  | absolutePath
  | driveLetter
  | pathTraversal
  | emptyEntryPath
  | escapesDestination (name : String)
  | entryTooLarge (name : String) (declared : Nat)
  | exceedsMaxSingleFile (name : String)
  | exceedsMaxTotal
deriving DecidableEq

/-- One archive entry as the `zip` crate presents it to
`unzip_safely_blocking`: the stored name, the directory flag, the
header-declared uncompressed size (`file.size()`), and the actual number
of bytes the decompressor yields (which a hostile archive can make differ
from `declared`). -/
structure ZipEntry where
  name : String
  isDir : Bool
  declared : Nat
  actualSize : Nat
deriving DecidableEq

/-- The body of the `for part in name.split('/')` loop of
`sanitize_zip_entry_path`: skip empty and `.` parts, bail on `..`,
push everything else. -/
def sanitizeLoop : List (List Char) → List (List Char) →
    Except ZipError (List (List Char))
  | [], acc => .ok acc
  | p :: rest, acc =>
    if p = [] ∨ p = ['.'] then sanitizeLoop rest acc
    else if p = ['.', '.'] then .error .pathTraversal
    else sanitizeLoop rest (acc ++ [p])

/-- `name.len() >= 2 && name.as_bytes()[1] == b':'` — the drive-designator
check, on UTF-8 bytes. -/
def secondUtf8ByteIsColon (cs : List Char) : Bool :=
  match utf8Bytes cs with
  | _ :: b :: _ => b == 58
  | _ => false

/-- Model of `sanitize_zip_entry_path`: backslashes to slashes, reject a
leading `/`, reject a `:` in byte position 1, split on `/`, drop empty and
`.` segments, bail on `..`, bail if nothing remains. An accepted name
yields its path as the list of remaining segments. -/
def sanitize_zip_entry_path (name : String) : Except ZipError (List String) :=
  let n : List Char := name.data.map (fun c => if c = '\\' then '/' else c)
  if n.head? = some '/' then .error .absolutePath
  else if secondUtf8ByteIsColon n then .error .driveLetter
  else
    match sanitizeLoop (splitOnSlash n) [] with
    | .error e => .error e
    | .ok out =>
      if out.isEmpty then .error .emptyEntryPath
      else .ok (out.map (fun cs => String.mk cs))

/-- Model of `normalize_lexical`: fold over the components, dropping `.`,
popping on `..` (`PathBuf::pop` is `dropLast`), pushing the rest. -/
def normalize_lexical (p : List String) : List String :=
  p.foldl
    (fun acc c =>
      if c = "." then acc
      else if c = ".." then acc.dropLast
      else acc ++ [c]) []

/-- Model of `is_within_dir`: after lexical normalization of both paths,
the base must be a component-wise prefix of the output path
(`Path::starts_with`). -/
def is_within_dir (out_path base : List String) : Bool :=
  (normalize_lexical base).isPrefixOf (normalize_lexical out_path)

/-- Outcome of streaming one entry's bytes. -/
inductive StreamRes where
  | ok
  | singleExceeded
  | totalExceeded
deriving DecidableEq

/-- `u64::saturating_add`. -/
def satAdd (a b : Nat) : Nat := min (a + b) (U64SIZE - 1)

/-- Bookkeeping for one successful chunk write of `n` bytes: the bytes
written to the file grow by `n`. -/
def streamStep (n : Nat) (r : StreamRes × Nat × Nat) : StreamRes × Nat × Nat :=
  (r.1, n + r.2.1, r.2.2)

/-- The chunk loop, structurally recursive on a fuel bound (each pass
consumes at least one remaining byte, so fuel `rem` suffices; the
fuel-exhausted case is unreachable under `rem ≤ fuel`). -/
def streamLoop (maxSingle maxTotal : Nat) :
    Nat → Nat → Nat → Nat → StreamRes × Nat × Nat
  | _, 0, _, total => (.ok, 0, total)
  | 0, _ + 1, _, total => (.ok, 0, total)
  | fuel + 1, rem + 1, written, total =>
    if satAdd written (min 65536 (rem + 1)) > maxSingle then
      (.singleExceeded, 0, total)
    else if satAdd total (min 65536 (rem + 1)) > maxTotal then
      (.totalExceeded, 0, satAdd total (min 65536 (rem + 1)))
    else
      streamStep (min 65536 (rem + 1))
        (streamLoop maxSingle maxTotal fuel (rem + 1 - min 65536 (rem + 1))
          (satAdd written (min 65536 (rem + 1)))
          (satAdd total (min 65536 (rem + 1))))

/-- Model of the `loop { file.read(&mut buf) ... }` body of
`unzip_safely_blocking`: read at most 64 KiB at a time; add to the
per-file counter (saturating) and bail if it exceeds `max_single_file`;
add to the running total (saturating) and bail if it exceeds
`max_total_uncompressed`; otherwise write the chunk and continue. Returns
the outcome, the number of bytes actually written to the destination
file, and the final value of the running total counter. -/
def streamFile (maxSingle maxTotal rem written total : Nat) :
    StreamRes × Nat × Nat :=
  streamLoop maxSingle maxTotal rem rem written total

/-- A filesystem side effect of the extractor: a `create_dir_all` target,
or a created destination file together with the number of bytes the
stream loop wrote into it. -/
inductive FsOp where
  | mkdir (path : List String)
  | createFile (path : List String) (written : Nat)
deriving DecidableEq

/-- The path an operation touches. -/
def FsOp.path : FsOp → List String
  | .mkdir p => p
  | .createFile p _ => p

/-- The `for i in 0..archive.len()` loop of `unzip_safely_blocking`,
threading the entry counter, the running total, and the log of filesystem
effects. Every bail site aborts the whole extraction with the log of what
had already been written. -/
def unzipEntries (lim : UnzipLimits) (dest : List String) :
    List ZipEntry → Nat → Nat → List FsOp → Except ZipError Unit × List FsOp
  | [], _, _, log => (.ok (), log)
  | e :: rest, filesCount, total, log =>
    let fc := filesCount + 1
    if fc > lim.max_files then (.error (.tooManyFiles lim.max_files), log)
    else
      match sanitize_zip_entry_path e.name with
      | .error err => (.error err, log)
      | .ok rel =>
        let out_path := dest ++ rel
        if !is_within_dir out_path dest then
          (.error (.escapesDestination e.name), log)
        else if e.isDir then
          unzipEntries lim dest rest fc total (log ++ [.mkdir out_path])
        else if e.declared > lim.max_single_file then
          (.error (.entryTooLarge e.name e.declared), log)
        else
          let log := log ++ [.mkdir out_path.dropLast]
          let r := streamFile lim.max_single_file lim.max_total_uncompressed
            e.actualSize 0 total
          let log := log ++ [.createFile out_path r.2.1]
          match r.1 with
          | .singleExceeded => (.error (.exceedsMaxSingleFile e.name), log)
          | .totalExceeded => (.error .exceedsMaxTotal, log)
          | .ok => unzipEntries lim dest rest fc r.2.2 log

/-- Model of `unzip_safely_blocking`: create the destination directory,
then process the entries in archive order. The returned log lists every
`create_dir_all` target and every created file with its written size. -/
def unzip_safely_blocking (zip : List ZipEntry) (dest : List String)
    (lim : UnzipLimits) : Except ZipError Unit × List FsOp :=
  unzipEntries lim dest zip 0 0 [.mkdir dest]

/-- `true` iff the result is an `Err`. -/
def isErr {ε α : Type} : Except ε α → Bool
  | .error _ => true
  | .ok _ => false

/-! ### Lemmas about `sanitize_zip_entry_path` -/

theorem sanitizeLoop_error_of_dotdot {parts : List (List Char)}
    (h : ['.', '.'] ∈ parts) (acc : List (List Char)) :
    sanitizeLoop parts acc = .error .pathTraversal := by
  induction parts generalizing acc with
  | nil => cases h
  | cons p rest ih =>
    rcases List.mem_cons.1 h with rfl | hmem
    · simp [sanitizeLoop]
    · unfold sanitizeLoop
      split
      · exact ih hmem acc
      · split
        · rfl
        · exact ih hmem _

theorem sanitizeLoop_ok_of_no_dotdot {parts : List (List Char)}
    (h : ['.', '.'] ∉ parts) (acc : List (List Char)) :
    sanitizeLoop parts acc =
      .ok (acc ++ parts.filter (fun p => decide (p ≠ [] ∧ p ≠ ['.']))) := by
  induction parts generalizing acc with
  | nil => simp [sanitizeLoop]
  | cons p rest ih =>
    have hp : p ≠ ['.', '.'] := fun hc => h (hc ▸ List.mem_cons_self _ _)
    have hrest : ['.', '.'] ∉ rest := fun hc => h (List.mem_cons_of_mem _ hc)
    show (if p = [] ∨ p = ['.'] then sanitizeLoop rest acc
      else if p = ['.', '.'] then .error .pathTraversal
      else sanitizeLoop rest (acc ++ [p])) = _
    rw [List.filter_cons]
    by_cases hskip : p = [] ∨ p = ['.']
    · rw [if_pos hskip, ih hrest acc, if_neg]
      simp only [decide_eq_true_eq, not_and, not_not]
      rcases hskip with rfl | rfl <;> simp
    · rw [if_neg hskip, if_neg hp, ih hrest _,
        if_pos (by simp only [decide_eq_true_eq]; push_neg at hskip; exact hskip)]
      simp

/-- Segments surviving `sanitize_zip_entry_path` are never empty, `.`,
or `..`. -/
theorem sanitize_ok_clean {name : String} {rel : List String}
    (h : sanitize_zip_entry_path name = .ok rel) :
    rel ≠ [] ∧ ∀ s ∈ rel, s ≠ "" ∧ s ≠ "." ∧ s ≠ ".." := by
  unfold sanitize_zip_entry_path at h
  set n := name.data.map (fun c => if c = '\\' then '/' else c) with hn
  by_cases habs : n.head? = some '/'
  · rw [if_pos habs] at h; cases h
  rw [if_neg habs] at h
  by_cases hdrv : secondUtf8ByteIsColon n = true
  · rw [if_pos hdrv] at h; cases h
  rw [if_neg hdrv] at h
  by_cases hdd : ['.', '.'] ∈ splitOnSlash n
  · rw [sanitizeLoop_error_of_dotdot hdd] at h; cases h
  rw [sanitizeLoop_ok_of_no_dotdot hdd] at h
  simp only [List.nil_append] at h
  set kept := (splitOnSlash n).filter (fun p => decide (p ≠ [] ∧ p ≠ ['.'])) with hk
  by_cases hemp : kept.isEmpty
  · rw [if_pos hemp] at h; cases h
  rw [if_neg hemp] at h
  have hrel : rel = kept.map (fun cs => String.mk cs) := by
    cases h; rfl
  constructor
  · rw [hrel]
    intro hc
    rw [List.map_eq_nil_iff] at hc
    rw [hc] at hemp
    exact hemp rfl
  · intro s hs
    rw [hrel] at hs
    obtain ⟨cs, hcs, rfl⟩ := List.mem_map.1 hs
    have hkeep := List.of_mem_filter hcs
    simp only [decide_eq_true_eq] at hkeep
    have hnd : cs ≠ ['.', '.'] := by
      intro hc
      exact hdd (hc ▸ List.mem_of_mem_filter hcs)
    refine ⟨?_, ?_, ?_⟩
    · intro hc
      have h2 := congrArg String.data hc
      exact hkeep.1 h2
    · intro hc
      have h2 := congrArg String.data hc
      exact hkeep.2 h2
    · intro hc
      have h2 := congrArg String.data hc
      exact hnd h2

/-! ### Lemmas about lexical normalization -/

theorem normalize_foldl_clean {rel : List String}
    (h : ∀ s ∈ rel, s ≠ "." ∧ s ≠ "..") (init : List String) :
    rel.foldl
      (fun acc c =>
        if c = "." then acc
        else if c = ".." then acc.dropLast
        else acc ++ [c]) init = init ++ rel := by
  induction rel generalizing init with
  | nil => simp
  | cons s rest ih =>
    have hs := h s (List.mem_cons_self _ _)
    have hrest : ∀ t ∈ rest, t ≠ "." ∧ t ≠ ".." :=
      fun t ht => h t (List.mem_cons_of_mem _ ht)
    simp only [List.foldl_cons, if_neg hs.1, if_neg hs.2]
    rw [ih hrest]
    simp

/-- Appending clean segments commutes with lexical normalization. -/
theorem normalize_append_clean {dest rel : List String}
    (h : ∀ s ∈ rel, s ≠ "." ∧ s ≠ "..") :
    normalize_lexical (dest ++ rel) = normalize_lexical dest ++ rel := by
  unfold normalize_lexical
  rw [List.foldl_append]
  exact normalize_foldl_clean h _

theorem isPrefixOf_append (l t : List String) :
    l.isPrefixOf (l ++ t) = true := by
  induction l with
  | nil => simp [List.isPrefixOf]
  | cons a l ih => simp [List.isPrefixOf, ih]

/-- Any path accepted by sanitization, re-rooted under the destination,
passes the `is_within_dir` double check. -/
theorem is_within_dir_of_sanitized {name : String} {rel : List String}
    (h : sanitize_zip_entry_path name = .ok rel) (dest : List String) :
    is_within_dir (dest ++ rel) dest = true := by
  have hclean := (sanitize_ok_clean h).2
  unfold is_within_dir
  rw [normalize_append_clean (fun s hs => ⟨(hclean s hs).2.1, (hclean s hs).2.2⟩)]
  exact isPrefixOf_append _ _

/-- `is_within_dir out dest = true` states exactly that the normalized
destination is a component-wise prefix of the normalized output path. -/
theorem is_within_dir_iff (out_path base : List String) :
    is_within_dir out_path base = true ↔
      (normalize_lexical base) <+: (normalize_lexical out_path) := by
  unfold is_within_dir
  exact List.isPrefixOf_iff_prefix

/-! ### Streaming bounds -/

theorem streamLoop_succ (maxS maxT fuel m w t : Nat) :
    streamLoop maxS maxT (fuel + 1) (m + 1) w t =
      if satAdd w (min 65536 (m + 1)) > maxS then (.singleExceeded, 0, t)
      else if satAdd t (min 65536 (m + 1)) > maxT then
        (.totalExceeded, 0, satAdd t (min 65536 (m + 1)))
      else
        streamStep (min 65536 (m + 1))
          (streamLoop maxS maxT fuel (m + 1 - min 65536 (m + 1))
            (satAdd w (min 65536 (m + 1)))
            (satAdd t (min 65536 (m + 1)))) := rfl

theorem streamLoop_bounds {maxS maxT : Nat}
    (hS : maxS < U64SIZE - 1) (hT : maxT < U64SIZE - 1) :
    ∀ fuel rem w t, rem ≤ fuel → w ≤ maxS → t ≤ maxT →
      (streamLoop maxS maxT fuel rem w t).2.1 + w ≤ maxS ∧
      (streamLoop maxS maxT fuel rem w t).2.1 + t ≤ maxT ∧
      ((streamLoop maxS maxT fuel rem w t).1 = .ok →
        (streamLoop maxS maxT fuel rem w t).2.2 =
          t + (streamLoop maxS maxT fuel rem w t).2.1 ∧
        (streamLoop maxS maxT fuel rem w t).2.2 ≤ maxT) := by
  have hsat : ∀ a b : Nat, satAdd a b = min (a + b) (U64SIZE - 1) :=
    fun _ _ => rfl
  have hU : U64SIZE = 18446744073709551616 := rfl
  intro fuel
  induction fuel with
  | zero =>
    intro rem w t hrem hw ht
    have : rem = 0 := by omega
    subst this
    refine ⟨?_, ?_, fun _ => ⟨?_, ht⟩⟩
    · show 0 + w ≤ maxS
      omega
    · show 0 + t ≤ maxT
      omega
    · show t = t + 0
      omega
  | succ fuel ih =>
    intro rem w t hrem hw ht
    cases rem with
    | zero =>
      refine ⟨?_, ?_, fun _ => ⟨?_, ht⟩⟩
      · show 0 + w ≤ maxS
        omega
      · show 0 + t ≤ maxT
        omega
      · show t = t + 0
        omega
    | succ m =>
      rw [streamLoop_succ]
      have hn1 : 1 ≤ min 65536 (m + 1) := by omega
      by_cases hsingle : satAdd w (min 65536 (m + 1)) > maxS
      · rw [if_pos hsingle]
        exact ⟨by simpa using hw, by simpa using ht, fun hc => nomatch hc⟩
      rw [if_neg hsingle]
      rw [hsat] at hsingle
      have hwn : w + min 65536 (m + 1) ≤ maxS := by omega
      by_cases htotal : satAdd t (min 65536 (m + 1)) > maxT
      · rw [if_pos htotal]
        exact ⟨by simpa using hw, by simpa using ht, fun hc => nomatch hc⟩
      rw [if_neg htotal]
      rw [hsat] at htotal
      have htn : t + min 65536 (m + 1) ≤ maxT := by omega
      have hsw : satAdd w (min 65536 (m + 1)) = w + min 65536 (m + 1) := by
        rw [hsat]; omega
      have hst : satAdd t (min 65536 (m + 1)) = t + min 65536 (m + 1) := by
        rw [hsat]; omega
      rw [hsw, hst]
      have hrec := ih (m + 1 - min 65536 (m + 1)) (w + min 65536 (m + 1))
        (t + min 65536 (m + 1)) (by omega) hwn htn
      refine ⟨?_, ?_, ?_⟩
      · show min 65536 (m + 1) +
          (streamLoop maxS maxT fuel (m + 1 - min 65536 (m + 1))
            (w + min 65536 (m + 1)) (t + min 65536 (m + 1))).2.1 + w ≤ maxS
        have := hrec.1
        omega
      · show min 65536 (m + 1) +
          (streamLoop maxS maxT fuel (m + 1 - min 65536 (m + 1))
            (w + min 65536 (m + 1)) (t + min 65536 (m + 1))).2.1 + t ≤ maxT
        have := hrec.2.1
        omega
      · intro hok
        have hok' : (streamLoop maxS maxT fuel (m + 1 - min 65536 (m + 1))
            (w + min 65536 (m + 1)) (t + min 65536 (m + 1))).1 = .ok := hok
        have h2 := hrec.2.2 hok'
        refine ⟨?_, h2.2⟩
        show (streamLoop maxS maxT fuel (m + 1 - min 65536 (m + 1))
            (w + min 65536 (m + 1)) (t + min 65536 (m + 1))).2.2 =
          t + (min 65536 (m + 1) +
            (streamLoop maxS maxT fuel (m + 1 - min 65536 (m + 1))
              (w + min 65536 (m + 1)) (t + min 65536 (m + 1))).2.1)
        omega

theorem streamFile_bounds {maxS maxT : Nat}
    (hS : maxS < U64SIZE - 1) (hT : maxT < U64SIZE - 1) :
    ∀ rem w t, w ≤ maxS → t ≤ maxT →
      (streamFile maxS maxT rem w t).2.1 + w ≤ maxS ∧
      (streamFile maxS maxT rem w t).2.1 + t ≤ maxT ∧
      ((streamFile maxS maxT rem w t).1 = .ok →
        (streamFile maxS maxT rem w t).2.2 =
          t + (streamFile maxS maxT rem w t).2.1 ∧
        (streamFile maxS maxT rem w t).2.2 ≤ maxT) :=
  fun rem w t hw ht =>
    streamLoop_bounds hS hT rem rem w t (Nat.le_refl rem) hw ht

/-! ### Invariants of the extraction loop -/

/-- If any entry of the archive fails name sanitization, the whole
extraction returns an error. -/
theorem unzipEntries_err_of_sanitize_fail (lim : UnzipLimits)
    (dest : List String) :
    ∀ (entries : List ZipEntry) (fc t : Nat) (log : List FsOp) (e : ZipEntry),
      e ∈ entries → isErr (sanitize_zip_entry_path e.name) = true →
      isErr (unzipEntries lim dest entries fc t log).1 = true := by
  intro entries
  induction entries with
  | nil => intro _ _ _ _ h; cases h
  | cons hd rest ih =>
    intro fc t log e hmem hbad
    rw [unzipEntries]
    by_cases hcount : fc + 1 > lim.max_files
    · rw [if_pos hcount]; rfl
    rw [if_neg hcount]
    rcases List.mem_cons.1 hmem with rfl | hmem'
    · cases hs : sanitize_zip_entry_path e.name with
      | error err => rfl
      | ok rel => rw [hs] at hbad; cases hbad
    · cases hs : sanitize_zip_entry_path hd.name with
      | error err => rfl
      | ok rel =>
        simp only
        by_cases hwd : is_within_dir (dest ++ rel) dest
        · rw [if_neg (by simp [hwd])]
          by_cases hdir : hd.isDir = true
          · rw [if_pos hdir]
            exact ih fc.succ t _ e hmem' hbad
          · rw [if_neg hdir]
            by_cases hdecl : hd.declared > lim.max_single_file
            · rw [if_pos hdecl]; rfl
            · rw [if_neg hdecl]
              cases hr : (streamFile lim.max_single_file
                  lim.max_total_uncompressed hd.actualSize 0 t).1 with
              | ok => exact ih fc.succ _ _ e hmem' hbad
              | singleExceeded => rfl
              | totalExceeded => rfl
        · rw [if_pos (by simp [hwd])]; rfl

theorem dropLast_append_ne_nil {l₂ : List String} (h : l₂ ≠ []) :
    ∀ l₁ : List String, (l₁ ++ l₂).dropLast = l₁ ++ l₂.dropLast := by
  intro l₁
  induction l₁ with
  | nil => rfl
  | cons a l ih =>
    have hne : l ++ l₂ ≠ [] := fun hc => h (List.append_eq_nil.1 hc).2
    cases hl : l ++ l₂ with
    | nil => exact absurd hl hne
    | cons b tl =>
      show (a :: (l ++ l₂)).dropLast = a :: (l ++ l₂.dropLast)
      rw [hl, List.dropLast_cons₂, ← hl, ih]

/-- Everything the extraction loop logs stays inside the destination,
provided everything already logged does. -/
theorem unzipEntries_within (lim : UnzipLimits) (dest : List String) :
    ∀ (entries : List ZipEntry) (fc t : Nat) (log : List FsOp),
      (∀ op ∈ log, is_within_dir op.path dest = true) →
      ∀ op ∈ (unzipEntries lim dest entries fc t log).2,
        is_within_dir op.path dest = true := by
  intro entries
  induction entries with
  | nil => intro fc t log hlog; simpa [unzipEntries] using hlog
  | cons hd rest ih =>
    intro fc t log hlog
    rw [unzipEntries]
    by_cases hcount : fc + 1 > lim.max_files
    · rw [if_pos hcount]; exact hlog
    rw [if_neg hcount]
    cases hs : sanitize_zip_entry_path hd.name with
    | error err => exact hlog
    | ok rel =>
      simp only
      have hclean := sanitize_ok_clean hs
      have hrelwd : is_within_dir (dest ++ rel) dest = true :=
        is_within_dir_of_sanitized hs dest
      by_cases hwd : is_within_dir (dest ++ rel) dest
      · rw [if_neg (by simp [hwd])]
        have hout : ∀ op ∈ log ++ [FsOp.mkdir (dest ++ rel)],
            is_within_dir op.path dest = true := by
          intro op hop
          rcases List.mem_append.1 hop with h' | h'
          · exact hlog op h'
          · simp only [List.mem_singleton] at h'
            subst h'
            exact hrelwd
        by_cases hdir : hd.isDir = true
        · rw [if_pos hdir]
          exact ih fc.succ t _ hout
        · rw [if_neg hdir]
          by_cases hdecl : hd.declared > lim.max_single_file
          · rw [if_pos hdecl]; exact hlog
          · rw [if_neg hdecl]
            have hparent : is_within_dir (dest ++ rel).dropLast dest = true := by
              rw [dropLast_append_ne_nil hclean.1]
              unfold is_within_dir
              rw [normalize_append_clean (fun s hs' =>
                have hc := hclean.2 s (List.dropLast_subset _ hs')
                ⟨hc.2.1, hc.2.2⟩)]
              exact isPrefixOf_append _ _
            have hlog2 : ∀ op ∈ (log ++ [FsOp.mkdir (dest ++ rel).dropLast]) ++
                [FsOp.createFile (dest ++ rel)
                  (streamFile lim.max_single_file lim.max_total_uncompressed
                    hd.actualSize 0 t).2.1],
                is_within_dir op.path dest = true := by
              intro op hop
              rcases List.mem_append.1 hop with h' | h'
              · rcases List.mem_append.1 h' with h'' | h''
                · exact hlog op h''
                · simp only [List.mem_singleton] at h''
                  subst h''
                  exact hparent
              · simp only [List.mem_singleton] at h'
                subst h'
                exact hrelwd
            cases hr : (streamFile lim.max_single_file
                lim.max_total_uncompressed hd.actualSize 0 t).1 with
            | ok => exact ih fc.succ _ _ hlog2
            | singleExceeded => exact hlog2
            | totalExceeded => exact hlog2
      · rw [if_pos (by simp [hwd])]; exact hlog

/-- Number of destination files created in a log. -/
def countFiles (log : List FsOp) : Nat :=
  (log.filter fun op =>
    match op with
    | .createFile _ _ => true
    | .mkdir _ => false).length

/-- Total number of bytes written into destination files in a log. -/
def writeSum (log : List FsOp) : Nat :=
  (log.map fun op =>
    match op with
    | .createFile _ w => w
    | .mkdir _ => 0).sum

theorem countFiles_append (a b : List FsOp) :
    countFiles (a ++ b) = countFiles a + countFiles b := by
  unfold countFiles
  rw [List.filter_append, List.length_append]

theorem writeSum_append (a b : List FsOp) :
    writeSum (a ++ b) = writeSum a + writeSum b := by
  unfold writeSum
  rw [List.map_append, List.sum_append]

/-- Size bounds maintained by the extraction loop: every created file holds
at most `max_single_file` bytes, and the bytes written across all files
never exceed `max_total_uncompressed`. -/
theorem unzipEntries_write_bounds (lim : UnzipLimits) (dest : List String)
    (hS : lim.max_single_file < U64SIZE - 1)
    (hT : lim.max_total_uncompressed < U64SIZE - 1) :
    ∀ (entries : List ZipEntry) (fc t : Nat) (log : List FsOp),
      t ≤ lim.max_total_uncompressed →
      writeSum log ≤ t →
      (∀ p w, FsOp.createFile p w ∈ log → w ≤ lim.max_single_file) →
      (∀ p w, FsOp.createFile p w ∈ (unzipEntries lim dest entries fc t log).2 →
        w ≤ lim.max_single_file) ∧
      writeSum (unzipEntries lim dest entries fc t log).2 ≤
        lim.max_total_uncompressed := by
  intro entries
  induction entries with
  | nil =>
    intro fc t log ht hws hperf
    exact ⟨by simpa [unzipEntries] using hperf,
      by simpa [unzipEntries] using le_trans hws ht⟩
  | cons hd rest ih =>
    intro fc t log ht hws hperf
    rw [unzipEntries]
    by_cases hcount : fc + 1 > lim.max_files
    · rw [if_pos hcount]
      exact ⟨hperf, le_trans hws ht⟩
    rw [if_neg hcount]
    cases hs : sanitize_zip_entry_path hd.name with
    | error err => exact ⟨hperf, le_trans hws ht⟩
    | ok rel =>
      simp only
      by_cases hwd : is_within_dir (dest ++ rel) dest
      · rw [if_neg (by simp [hwd])]
        by_cases hdir : hd.isDir = true
        · rw [if_pos hdir]
          refine ih fc.succ t _ ht ?_ ?_
          · rw [writeSum_append]
            simpa [writeSum] using hws
          · intro p w hw
            rcases List.mem_append.1 hw with h' | h'
            · exact hperf p w h'
            · simp only [List.mem_singleton] at h'
              cases h'
        · rw [if_neg hdir]
          by_cases hdecl : hd.declared > lim.max_single_file
          · rw [if_pos hdecl]
            exact ⟨hperf, le_trans hws ht⟩
          · rw [if_neg hdecl]
            have hsb := streamFile_bounds hS hT hd.actualSize 0 t
              (Nat.zero_le _) ht
            set r := streamFile lim.max_single_file
              lim.max_total_uncompressed hd.actualSize 0 t with hr
            have hrw : r.2.1 ≤ lim.max_single_file := by
              have := hsb.1; omega
            have hrt : r.2.1 + t ≤ lim.max_total_uncompressed := hsb.2.1
            have hlog2ws : writeSum ((log ++ [FsOp.mkdir (dest ++ rel).dropLast]) ++
                [FsOp.createFile (dest ++ rel) r.2.1]) ≤ t + r.2.1 := by
              rw [writeSum_append, writeSum_append]
              have h1 : writeSum [FsOp.mkdir (dest ++ rel).dropLast] = 0 := rfl
              have h2 : writeSum [FsOp.createFile (dest ++ rel) r.2.1] = r.2.1 := by
                simp [writeSum]
              rw [h1, h2]
              omega
            have hlog2perf : ∀ p w,
                FsOp.createFile p w ∈ (log ++ [FsOp.mkdir (dest ++ rel).dropLast]) ++
                  [FsOp.createFile (dest ++ rel) r.2.1] →
                w ≤ lim.max_single_file := by
              intro p w hw
              rcases List.mem_append.1 hw with h' | h'
              · rcases List.mem_append.1 h' with h'' | h''
                · exact hperf p w h''
                · simp only [List.mem_singleton] at h''
                  cases h''
              · simp only [List.mem_singleton] at h'
                cases h'
                exact hrw
            cases hres : r.1 with
            | singleExceeded =>
              exact ⟨hlog2perf, le_trans hlog2ws (by omega)⟩
            | totalExceeded =>
              exact ⟨hlog2perf, le_trans hlog2ws (by omega)⟩
            | ok =>
              have hok := hsb.2.2 hres
              refine ih fc.succ r.2.2 _ hok.2 ?_ hlog2perf
              rw [hok.1]
              exact le_trans hlog2ws (by omega)
      · rw [if_pos (by simp [hwd])]
        exact ⟨hperf, le_trans hws ht⟩

/-- An archive with more entries than `max_files` always errors. -/
theorem unzipEntries_err_of_too_many (lim : UnzipLimits) (dest : List String) :
    ∀ (entries : List ZipEntry) (fc t : Nat) (log : List FsOp),
      fc ≤ lim.max_files → entries.length + fc > lim.max_files →
      isErr (unzipEntries lim dest entries fc t log).1 = true := by
  intro entries
  induction entries with
  | nil =>
    intro fc t log hfc hlen
    simp only [List.length_nil] at hlen
    omega
  | cons hd rest ih =>
    intro fc t log hfc hlen
    rw [unzipEntries]
    by_cases hcount : fc + 1 > lim.max_files
    · rw [if_pos hcount]; rfl
    rw [if_neg hcount]
    have hlen' : rest.length + (fc + 1) > lim.max_files := by
      simp only [List.length_cons] at hlen
      omega
    cases hs : sanitize_zip_entry_path hd.name with
    | error err => rfl
    | ok rel =>
      simp only
      by_cases hwd : is_within_dir (dest ++ rel) dest
      · rw [if_neg (by simp [hwd])]
        by_cases hdir : hd.isDir = true
        · rw [if_pos hdir]
          exact ih fc.succ t _ (by omega) hlen'
        · rw [if_neg hdir]
          by_cases hdecl : hd.declared > lim.max_single_file
          · rw [if_pos hdecl]; rfl
          · rw [if_neg hdecl]
            cases hres : (streamFile lim.max_single_file
                lim.max_total_uncompressed hd.actualSize 0 t).1 with
            | ok => exact ih fc.succ _ _ (by omega) hlen'
            | singleExceeded => rfl
            | totalExceeded => rfl
      · rw [if_pos (by simp [hwd])]; rfl

/-- The loop creates files for at most `max_files - fc` further entries. -/
theorem unzipEntries_countFiles_le (lim : UnzipLimits) (dest : List String) :
    ∀ (entries : List ZipEntry) (fc t : Nat) (log : List FsOp),
      countFiles (unzipEntries lim dest entries fc t log).2 ≤
        countFiles log + (lim.max_files - fc) := by
  intro entries
  induction entries with
  | nil =>
    intro fc t log
    simp [unzipEntries]
  | cons hd rest ih =>
    intro fc t log
    rw [unzipEntries]
    by_cases hcount : fc + 1 > lim.max_files
    · rw [if_pos hcount]
      simp
    rw [if_neg hcount]
    cases hs : sanitize_zip_entry_path hd.name with
    | error err => simp
    | ok rel =>
      simp only
      by_cases hwd : is_within_dir (dest ++ rel) dest
      · rw [if_neg (by simp [hwd])]
        by_cases hdir : hd.isDir = true
        · rw [if_pos hdir]
          have hm : countFiles [FsOp.mkdir (dest ++ rel)] = 0 := rfl
          have := ih fc.succ t (log ++ [FsOp.mkdir (dest ++ rel)])
          rw [countFiles_append, hm] at this
          refine le_trans this (by omega)
        · rw [if_neg hdir]
          by_cases hdecl : hd.declared > lim.max_single_file
          · rw [if_pos hdecl]
            simp
          · rw [if_neg hdecl]
            set r := streamFile lim.max_single_file
              lim.max_total_uncompressed hd.actualSize 0 t with hr
            have hcnt : countFiles ((log ++ [FsOp.mkdir (dest ++ rel).dropLast]) ++
                [FsOp.createFile (dest ++ rel) r.2.1]) = countFiles log + 1 := by
              rw [countFiles_append, countFiles_append]
              simp [countFiles]
            cases hres : r.1 with
            | singleExceeded => rw [hcnt]; omega
            | totalExceeded => rw [hcnt]; omega
            | ok =>
              have := ih fc.succ r.2.2 ((log ++ [FsOp.mkdir (dest ++ rel).dropLast]) ++
                [FsOp.createFile (dest ++ rel) r.2.1])
              rw [hcnt] at this
              refine le_trans this ?_
              omega
      · rw [if_pos (by simp [hwd])]
        simp

/-- If the archive has more entries than `max_files` and the first
`max_files` entries all process cleanly, the failure is precisely the
entry-count error. -/
theorem unzipEntries_count_error (lim : UnzipLimits) (dest : List String) :
    ∀ (entries : List ZipEntry) (fc t : Nat) (log : List FsOp),
      fc ≤ lim.max_files →
      (unzipEntries lim dest (entries.take (lim.max_files - fc)) fc t log).1 =
        .ok () →
      entries.length + fc > lim.max_files →
      (unzipEntries lim dest entries fc t log).1 =
        .error (.tooManyFiles lim.max_files) := by
  intro entries
  induction entries with
  | nil =>
    intro fc t log hfc _ hlen
    simp only [List.length_nil] at hlen
    omega
  | cons hd rest ih =>
    intro fc t log hfc hok hlen
    by_cases hcount : fc + 1 > lim.max_files
    · rw [unzipEntries, if_pos hcount]
    have htake : (hd :: rest).take (lim.max_files - fc) =
        hd :: rest.take (lim.max_files - (fc + 1)) := by
      have h1 : lim.max_files - fc = (lim.max_files - (fc + 1)) + 1 := by omega
      rw [h1, List.take_succ_cons]
    rw [htake] at hok
    rw [unzipEntries] at hok ⊢
    rw [if_neg hcount] at hok ⊢
    have hlen' : rest.length + (fc + 1) > lim.max_files := by
      simp only [List.length_cons] at hlen
      omega
    cases hs : sanitize_zip_entry_path hd.name with
    | error err =>
      rw [hs] at hok
      cases hok
    | ok rel =>
      rw [hs] at hok
      simp only at hok ⊢
      by_cases hwd : is_within_dir (dest ++ rel) dest
      · rw [if_neg (by simp [hwd])] at hok ⊢
        by_cases hdir : hd.isDir = true
        · rw [if_pos hdir] at hok ⊢
          exact ih fc.succ t _ (by omega) hok hlen'
        · rw [if_neg hdir] at hok ⊢
          by_cases hdecl : hd.declared > lim.max_single_file
          · rw [if_pos hdecl] at hok
            cases hok
          · rw [if_neg hdecl] at hok ⊢
            cases hres : (streamFile lim.max_single_file
                lim.max_total_uncompressed hd.actualSize 0 t).1 with
            | ok =>
              rw [hres] at hok
              exact ih fc.succ _ _ (by omega) hok hlen'
            | singleExceeded =>
              rw [hres] at hok
              cases hok
            | totalExceeded =>
              rw [hres] at hok
              cases hok
      · rw [if_pos (by simp [hwd])] at hok
        cases hok

/-- A name that, after backslash normalization, is absolute or contains a
`..` segment (the bad shapes named by the specification). -/
def badEntryName (name : String) : Bool :=
  let n := name.data.map (fun c => if c = '\\' then '/' else c)
  (n.head? == some '/') || decide (['.', '.'] ∈ splitOnSlash n)

theorem sanitize_err_of_badEntryName {name : String}
    (h : badEntryName name = true) :
    isErr (sanitize_zip_entry_path name) = true := by
  unfold badEntryName at h
  unfold sanitize_zip_entry_path
  simp only [Bool.or_eq_true, beq_iff_eq, decide_eq_true_eq] at h
  by_cases habs : (name.data.map (fun c => if c = '\\' then '/' else c)).head? =
      some '/'
  · rw [if_pos habs]; rfl
  rw [if_neg habs]
  have hdd : ['.', '.'] ∈ splitOnSlash
      (name.data.map (fun c => if c = '\\' then '/' else c)) := by
    rcases h with h' | h'
    · exact absurd h' habs
    · exact h'
  by_cases hdrv : secondUtf8ByteIsColon
      (name.data.map (fun c => if c = '\\' then '/' else c)) = true
  · rw [if_pos hdrv]; rfl
  · rw [if_neg hdrv, sanitizeLoop_error_of_dotdot hdd]
    rfl

/-! ## Run store (model of `src/storage.rs`) -/

/-- JSON values, as far as the status records need them (model of
`serde_json::Value` at the interface this program uses). -/
inductive Json where
  | null
  | str (s : String)
  | obj (fields : List (String × Json))

/-- The `RunStatus` record of `storage.rs`: outcome string plus optional
error text. -/
structure RunStatus where
  status : String
  error : Option String
deriving DecidableEq

/-- Field lookup in a JSON object (first occurrence wins, as in
`serde_json`). -/
def jsonLookup : List (String × Json) → String → Option Json
  | [], _ => none
  | (k, v) :: rest, key => if k = key then some v else jsonLookup rest key

/-- Serialization of a `RunStatus` (the JSON value `serde_json` writes for
`#[derive(Serialize)]`: fields in declaration order, `None` as `null`). -/
def statusToJson (st : RunStatus) : Json :=
  .obj [("status", .str st.status),
    ("error", match st.error with
      | none => .null
      | some e => .str e)]

/-- Deserialization of a `RunStatus` (the acceptance of
`#[derive(Deserialize)]`: a JSON object whose `status` field is a string
and whose `error` field is absent, `null`, or a string). -/
def statusFromJson : Json → Option RunStatus
  | .obj fields =>
    match jsonLookup fields "status" with
    | some (.str s) =>
      match jsonLookup fields "error" with
      | none => some ⟨s, none⟩
      | some .null => some ⟨s, none⟩
      | some (.str e) => some ⟨s, some e⟩
      | some (.obj _) => none
    | _ => none
  | _ => none

/-- The caller-supplied metadata record (`Meta` in `handlers/api.rs`). -/
structure Meta where
  branch : Option String
  commit : Option String
  trigger : Option String
  started_at : Option String
deriving DecidableEq

/-- `Meta::default()`. -/
def Meta.default : Meta := ⟨none, none, none, none⟩

/-- Update an association list, replacing any previous binding of the key
(the store's model of writing a file at a path). -/
def setAssoc {κ α : Type} [DecidableEq κ] (k : κ) (v : α)
    (l : List (κ × α)) : List (κ × α) :=
  (k, v) :: l.filter (fun p => decide (p.1 ≠ k))

/-- Look up an association list (the store's model of reading a file at a
path; `none` is "no such file"). -/
def getAssoc {κ α : Type} [DecidableEq κ] (k : κ) :
    List (κ × α) → Option α
  | [] => none
  | (k', v) :: rest => if k' = k then some v else getAssoc k rest

theorem getAssoc_setAssoc {κ α : Type} [DecidableEq κ] (k : κ) (v : α)
    (l : List (κ × α)) : getAssoc k (setAssoc k v l) = some v := by
  simp [setAssoc, getAssoc]

theorem getAssoc_setAssoc_ne {κ α : Type} [DecidableEq κ] {k k' : κ}
    (h : k' ≠ k) (v : α) (l : List (κ × α)) :
    getAssoc k' (setAssoc k v l) = getAssoc k' l := by
  unfold setAssoc
  rw [getAssoc, if_neg (fun hc => h hc.symm)]
  induction l with
  | nil => rfl
  | cons p rest ih =>
    by_cases hp : p.1 = k
    · rw [List.filter_cons_of_neg (by simpa using hp)]
      rw [ih]
      cases p with
      | mk pk pv =>
        simp only at hp
        rw [getAssoc, if_neg (by rw [hp]; exact fun hc => h hc.symm)]
    · rw [List.filter_cons_of_pos (by simpa using hp)]
      cases p with
      | mk pk pv =>
        rw [getAssoc, getAssoc]
        by_cases hk : pk = k'
        · rw [if_pos hk, if_pos hk]
        · rw [if_neg hk, if_neg hk, ih]

/-- The filesystem state the run store operates on: which project `runs`
directories exist, the contents of each project's `next_run_id` and
`latest_run_id` files, which run directories exist, and the contents of
each run's `meta.json` and `status.json`. -/
structure Store where
  projectDirs : List String
  counters : List (String × String)
  latests : List (String × String)
  runDirs : List (String × Nat)
  metas : List ((String × Nat) × Meta)
  statuses : List ((String × Nat) × Json)

/-- The empty data directory. -/
def Store.empty : Store := ⟨[], [], [], [], [], []⟩

/-- Model of `ensure_project_dirs`: create the project's `runs` directory
if absent (idempotent). -/
def ensure_project_dirs (s : Store) (p : String) : Store :=
  { s with projectDirs :=
      if p ∈ s.projectDirs then s.projectDirs else p :: s.projectDirs }

/-- Model of `reserve_next_run_id` acting on the counter-file content:
read (absent or unparsable means 1), write back `current + 1` (wrapping
`u64` addition, written via the temp-file-plus-rename pattern, modelled
as atomic replacement), return `current`. -/
def reserve_next_run_id (file : Option String) : Nat × String :=
  let current : Nat :=
    match file with
    | some s => (rustParseU64 (rustTrim s)).getD 1
    | none => 1
  (current, u64ToString ((current + 1) % U64SIZE))

/-- `reserve_next_run_id` on the store. -/
def reserveOnStore (s : Store) (p : String) : Nat × Store :=
  let r := reserve_next_run_id (getAssoc p s.counters)
  (r.1, { s with counters := setAssoc p r.2 s.counters })

/-- Model of `set_latest_run_id` (temp file + atomic rename). -/
def set_latest_run_id (s : Store) (p : String) (id : Nat) : Store :=
  { s with latests := setAssoc p (u64ToString id) s.latests }

/-- Model of `read_latest_run_id`: missing or unparsable pointer file
reads as `none`. -/
def read_latest_run_id (s : Store) (p : String) : Option Nat :=
  (getAssoc p s.latests).bind (fun str => rustParseU64 (rustTrim str))

/-- Model of `write_json` for the status record (serialize, temp file,
atomic rename). -/
def writeStatus (s : Store) (key : String × Nat) (st : RunStatus) : Store :=
  { s with statuses := setAssoc key (statusToJson st) s.statuses }

/-- Model of `read_run_status`: missing or unparsable `status.json` reads
as `none`. -/
def read_run_status (s : Store) (key : String × Nat) : Option RunStatus :=
  (getAssoc key s.statuses).bind statusFromJson

/-- One directory entry as `read_dir` yields it: its name (`none` when the
OS name is not valid UTF-8, making `to_str` fail) and whether it is a
directory. -/
structure DirEnt where
  name : Option String
  isDir : Bool

/-- Model of `list_projects`: keep directory entries whose names are valid
UTF-8, and sort. -/
def list_projects (ents : List DirEnt) : List String :=
  ((ents.filter (·.isDir)).filterMap (·.name)).mergeSort
    (fun a b => decide (a ≤ b))

/-- Model of `list_run_ids`: keep directory entries whose names parse as
`u64`, and sort. -/
def list_run_ids (ents : List DirEnt) : List Nat :=
  ((ents.filter (·.isDir)).filterMap
    (fun e => e.name.bind rustParseU64)).mergeSort (fun a b => decide (a ≤ b))

/-- Model of `sanitize_name` (`util.rs`): nonempty, at most 80 bytes, all
characters ASCII alphanumeric or `-`/`_`/`.`. -/
def sanitize_name (s : String) : Option String :=
  if (utf8Bytes s.data).length = 0 ∨ 80 < (utf8Bytes s.data).length then none
  else if s.data.all (fun c =>
      (('a' ≤ c ∧ c ≤ 'z') ∨ ('A' ≤ c ∧ c ≤ 'Z') ∨ ('0' ≤ c ∧ c ≤ '9')) ∨
        c = '-' ∨ c = '_' ∨ c = '.')
  then some s
  else none

/-! ## Request handlers (model of `src/handlers/api.rs`) -/

/-- The error text of a `ZipError`, as `anyhow` would format it. -/
def zipErrorMessage : ZipError → String
  | .tooManyFiles limit => "zip has too many files (>" ++ u64ToString limit ++ ")"
  | .absolutePath => "absolute path not allowed"
  | .driveLetter => "drive letter path not allowed"
  | .pathTraversal => "path traversal not allowed"
  | .emptyEntryPath => "empty entry path"
  | .escapesDestination name => "zip entry escapes destination: " ++ name
  | .entryTooLarge name declared =>
    "zip entry too large: " ++ name ++ " (" ++ u64ToString declared ++ " bytes)"
  | .exceedsMaxSingleFile name => "zip entry exceeds max_single_file: " ++ name
  | .exceedsMaxTotal => "zip exceeds max_total_uncompressed"

/-- The multipart body of an upload request, after the field loop: the
`results` field decoded as an archive (absent when the field is missing),
and the `meta` field (outer `Option`: field present; inner `Option`:
whether its text parses as `Meta`, `none` meaning malformed JSON). -/
structure UploadParts where
  results : Option (List ZipEntry)
  metaField : Option (Option Meta)

/-- The response `upload_run` produces, as far as status codes and payload
distinguish the cases. -/
inductive UploadOutcome where
  | invalidName
  | missingResults
  | badZip (e : ZipError) (runId : Nat)
  | success (runId : Nat)
  | renderFailed (runId : Nat) (err : String)
deriving DecidableEq

/-- Model of `upload_run`: validate the project name; take the project
guard (calls for one project are serialized, so the model is a plain
function of the store); ensure project directories; reserve the run ID;
create the run's results directory; read the multipart fields (malformed
`meta` text falls back to `Meta::default()`); reject if `results` is
missing; write `meta.json`; extract; invoke the renderer; write
`status.json`; advance the latest pointer only on success. -/
def upload_run (dataDir : List String) (s : Store) (projectRaw : String)
    (parts : UploadParts) (render : Except String Unit) :
    UploadOutcome × Store :=
  match sanitize_name projectRaw with
  | none => (.invalidName, s)
  | some project =>
    let s := ensure_project_dirs s project
    let r := reserveOnStore s project
    let runId := r.1
    let s := r.2
    let s := { s with runDirs := (project, runId) :: s.runDirs }
    match parts.results with
    | none => (.missingResults, s)
    | some zipEntries =>
      let meta :=
        match parts.metaField with
        | some (some m) => m
        | _ => Meta.default
      let s := { s with metas := setAssoc (project, runId) meta s.metas }
      let results_dir :=
        dataDir ++ ["projects", project, "runs", u64ToString runId,
          "allure-results"]
      match (unzip_safely_blocking zipEntries results_dir
          UnzipLimits.default).1 with
      | .error e =>
        let s := writeStatus s (project, runId)
          ⟨"failed", some ("bad zip: " ++ zipErrorMessage e)⟩
        (.badZip e runId, s)
      | .ok _ =>
        match render with
        | .ok _ =>
          let s := writeStatus s (project, runId) ⟨"success", none⟩
          let s := set_latest_run_id s project runId
          (.success runId, s)
        | .error err =>
          let s := writeStatus s (project, runId) ⟨"failed", some err⟩
          (.renderFailed runId err, s)

/-- The response `regenerate_run` produces. -/
inductive RegenOutcome where
  | invalidName
  | success
  | failed (err : String)
deriving DecidableEq

/-- Model of `regenerate_run`: validate the name, take the guard, remove
the old report directory, re-run the renderer; on success write a success
status and advance the latest pointer only when there is no current
pointer or it already points at this run; on failure write a failed
status and leave the pointer alone. -/
def regenerate_run (s : Store) (projectRaw : String) (runId : Nat)
    (render : Except String Unit) : RegenOutcome × Store :=
  match sanitize_name projectRaw with
  | none => (.invalidName, s)
  | some project =>
    match render with
    | .ok _ =>
      let s := writeStatus s (project, runId) ⟨"success", none⟩
      let latest := read_latest_run_id s project
      let s :=
        if latest = none ∨ latest = some runId then
          set_latest_run_id s project runId
        else s
      (.success, s)
    | .error err =>
      let s := writeStatus s (project, runId) ⟨"failed", some err⟩
      (.failed err, s)

/-- The run IDs returned by `n` successive calls of `reserve_next_run_id`
for one project (serialized by the project guard), starting from counter
file content `file`, together with the final content. -/
def reserveSeq : Nat → Option String → List Nat × Option String
  | 0, file => ([], file)
  | n + 1, file =>
    let r := reserve_next_run_id file
    let rest := reserveSeq n (some r.2)
    (r.1 :: rest.1, rest.2)

instance {ε α : Type} [DecidableEq ε] [DecidableEq α] :
    DecidableEq (Except ε α) := fun x y =>
  match x, y with
  | .ok a, .ok b =>
    if h : a = b then .isTrue (by rw [h])
    else .isFalse (fun hc => h (by injection hc))
  | .error a, .error b =>
    if h : a = b then .isTrue (by rw [h])
    else .isFalse (fun hc => h (by injection hc))
  | .ok _, .error _ => .isFalse (fun hc => Except.noConfusion hc)
  | .error _, .ok _ => .isFalse (fun hc => Except.noConfusion hc)

/-- When the actual stream is longer than `max_single_file` permits and the
per-file and total counters coincide (they do for the run's first file
entry) with the single-file limit not above the total limit, the loop ends
with the per-file guard, during streaming. -/
theorem streamLoop_single_exceeded {maxS maxT : Nat}
    (hS : maxS < U64SIZE - 1) (hST : maxS ≤ maxT) :
    ∀ fuel rem w, rem ≤ fuel → w ≤ maxS → w + rem > maxS →
      (streamLoop maxS maxT fuel rem w w).1 = .singleExceeded := by
  have hsat : ∀ a b : Nat, satAdd a b = min (a + b) (U64SIZE - 1) :=
    fun _ _ => rfl
  have hU : U64SIZE = 18446744073709551616 := rfl
  intro fuel
  induction fuel with
  | zero =>
    intro rem w hrem hw hover
    omega
  | succ fuel ih =>
    intro rem w hrem hw hover
    cases rem with
    | zero => omega
    | succ m =>
      rw [streamLoop_succ]
      have hn1 : 1 ≤ min 65536 (m + 1) := by omega
      by_cases hsingle : satAdd w (min 65536 (m + 1)) > maxS
      · rw [if_pos hsingle]
      · rw [if_neg hsingle]
        rw [hsat] at hsingle
        have hwn : w + min 65536 (m + 1) ≤ maxS := by omega
        have hnototal : ¬ satAdd w (min 65536 (m + 1)) > maxT := by
          rw [hsat]
          omega
        rw [if_neg hnototal]
        have hsw : satAdd w (min 65536 (m + 1)) = w + min 65536 (m + 1) := by
          rw [hsat]; omega
        rw [hsw]
        show (streamLoop maxS maxT fuel (m + 1 - min 65536 (m + 1))
          (w + min 65536 (m + 1)) (w + min 65536 (m + 1))).1 = .singleExceeded
        exact ih (m + 1 - min 65536 (m + 1)) (w + min 65536 (m + 1))
          (by omega) hwn (by omega)

/-! ## Claim theorems -/

/-- C9 (amended): after converting `\` to `/`, `sanitize_zip_entry_path`
rejects a name beginning with `/`, rejects a name whose second UTF-8
byte is `:` (the drive-designator check `as_bytes()[1] == b':'`, which
coincides with the second character exactly when the first character is
ASCII), splits on `/`, drops empty and `.` segments, rejects the entry
if any segment is `..`, and an accepted name yields the relative path
formed from the remaining segments in order. -/
theorem spec_c9_sanitize_exact (name : String) :
    ((name.data.map (fun c => if c = '\\' then '/' else c)).head? = some '/' →
      sanitize_zip_entry_path name = .error .absolutePath) ∧
    ((name.data.map (fun c => if c = '\\' then '/' else c)).head? ≠ some '/' →
      secondUtf8ByteIsColon
        (name.data.map (fun c => if c = '\\' then '/' else c)) = true →
      sanitize_zip_entry_path name = .error .driveLetter) ∧
    ((name.data.map (fun c => if c = '\\' then '/' else c)).head? ≠ some '/' →
      secondUtf8ByteIsColon
        (name.data.map (fun c => if c = '\\' then '/' else c)) = false →
      ['.', '.'] ∈ splitOnSlash
        (name.data.map (fun c => if c = '\\' then '/' else c)) →
      sanitize_zip_entry_path name = .error .pathTraversal) ∧
    (∀ rel, sanitize_zip_entry_path name = .ok rel →
      rel = ((splitOnSlash
          (name.data.map (fun c => if c = '\\' then '/' else c))).filter
        (fun p => decide (p ≠ [] ∧ p ≠ ['.']))).map (fun cs => String.mk cs)) := by
  refine ⟨?_, ?_, ?_, ?_⟩
  · intro habs
    unfold sanitize_zip_entry_path
    rw [if_pos habs]
  · intro habs hdrv
    unfold sanitize_zip_entry_path
    rw [if_neg habs, if_pos hdrv]
  · intro habs hdrv hdd
    unfold sanitize_zip_entry_path
    rw [if_neg habs, if_neg (by rw [hdrv]; exact Bool.false_ne_true),
      sanitizeLoop_error_of_dotdot hdd]
  · intro rel h
    unfold sanitize_zip_entry_path at h
    by_cases habs : (name.data.map (fun c => if c = '\\' then '/' else c)).head? =
        some '/'
    · rw [if_pos habs] at h; cases h
    rw [if_neg habs] at h
    by_cases hdrv : secondUtf8ByteIsColon
        (name.data.map (fun c => if c = '\\' then '/' else c)) = true
    · rw [if_pos hdrv] at h; cases h
    rw [if_neg hdrv] at h
    by_cases hdd : ['.', '.'] ∈ splitOnSlash
        (name.data.map (fun c => if c = '\\' then '/' else c))
    · rw [sanitizeLoop_error_of_dotdot hdd] at h; cases h
    rw [sanitizeLoop_ok_of_no_dotdot hdd] at h
    simp only [List.nil_append] at h
    by_cases hemp : ((splitOnSlash
        (name.data.map (fun c => if c = '\\' then '/' else c))).filter
      (fun p => decide (p ≠ [] ∧ p ≠ ['.']))).isEmpty
    · rw [if_pos hemp] at h; cases h
    · rw [if_neg hemp] at h
      cases h
      rfl

/-- C9 witness: the characterization applied at a concrete traversal
name. -/
theorem spec_c9_witness :
    sanitize_zip_entry_path "..\\secret" = .error .pathTraversal :=
  (spec_c9_sanitize_exact "..\\secret").2.2.1 (by decide) (by decide) (by decide)

/-- C9 counterexample: the name `é:` has `:` as its second character, yet
sanitization accepts it — the source checks the second byte of the UTF-8
encoding (`as_bytes()[1]`), which here is the continuation byte `0xA9` of
`é`, not `:`. -/
theorem spec_c9_counterexample :
    (("é:" : String).data.map
      (fun c => if c = '\\' then '/' else c)).get? 1 = some ':' ∧
    sanitize_zip_entry_path "é:" = .ok ["é:"] := by
  decide

/-- C10 (amended): a stored name that reaches segment filtering and drops
to nothing — such as `.`, `./`, or `././` — is rejected with the
`empty entry path` error, and any archive containing such an entry fails
as a whole; `//` is instead caught earlier by the absolute-path check. -/
theorem spec_c10_empty_path :
    sanitize_zip_entry_path "." = .error .emptyEntryPath ∧
    sanitize_zip_entry_path "./" = .error .emptyEntryPath ∧
    sanitize_zip_entry_path "././" = .error .emptyEntryPath ∧
    (∀ (zip : List ZipEntry) (dest : List String) (lim : UnzipLimits)
      (e : ZipEntry), e ∈ zip →
      sanitize_zip_entry_path e.name = .error .emptyEntryPath →
      isErr (unzip_safely_blocking zip dest lim).1 = true) := by
  refine ⟨by decide, by decide, by decide, ?_⟩
  intro zip dest lim e hmem hs
  exact unzipEntries_err_of_sanitize_fail lim dest zip 0 0 _ e hmem
    (by rw [hs]; rfl)

/-- C10 counterexample: `//` does not sanitize to the `empty entry path`
error; it is rejected by the absolute-path check. -/
theorem spec_c10_counterexample :
    sanitize_zip_entry_path "//" = .error .absolutePath ∧
    ¬ sanitize_zip_entry_path "//" = .error .emptyEntryPath := by
  decide

/-- C10 witness: an archive holding the entry `.` fails as a whole. -/
theorem spec_c10_witness :
    isErr (unzip_safely_blocking [⟨".", false, 0, 0⟩] ["dest"]
      UnzipLimits.default).1 = true :=
  spec_c10_empty_path.2.2.2 [⟨".", false, 0, 0⟩] ["dest"] UnzipLimits.default
    ⟨".", false, 0, 0⟩ (List.mem_singleton.2 rfl) (by decide)

/-- C1: an archive containing an entry named `../../etc/passwd`, or any
entry whose name after backslash normalization is absolute or has a `..`
segment, fails extraction as a whole; and every path the extractor ever
creates (under any archive at all) has the destination as a lexical
prefix after normalization, so nothing is created outside the
destination. -/
theorem spec_c1_no_escape (zip : List ZipEntry) (dest : List String)
    (lim : UnzipLimits) :
    ((∃ e ∈ zip, e.name = "../../etc/passwd" ∨ badEntryName e.name = true) →
      isErr (unzip_safely_blocking zip dest lim).1 = true) ∧
    (∀ op ∈ (unzip_safely_blocking zip dest lim).2,
      normalize_lexical dest <+: normalize_lexical op.path) := by
  constructor
  · rintro ⟨e, hmem, hbad⟩
    have hbad' : badEntryName e.name = true := by
      rcases hbad with hname | hb
      · rw [hname]; decide
      · exact hb
    exact unzipEntries_err_of_sanitize_fail lim dest zip 0 0 _ e hmem
      (sanitize_err_of_badEntryName hbad')
  · intro op hop
    have hinit : ∀ op' ∈ [FsOp.mkdir dest],
        is_within_dir op'.path dest = true := by
      intro op' hop'
      simp only [List.mem_singleton] at hop'
      subst hop'
      show is_within_dir dest dest = true
      unfold is_within_dir
      exact List.isPrefixOf_iff_prefix.2 (List.prefix_refl _)
    exact (is_within_dir_iff _ _).1
      (unzipEntries_within lim dest zip 0 0 [FsOp.mkdir dest] hinit op hop)

/-- C1 witness: the theorem applied to an archive holding exactly the
`../../etc/passwd` entry. -/
theorem spec_c1_witness :
    isErr (unzip_safely_blocking [⟨"../../etc/passwd", false, 0, 0⟩]
      ["data"] UnzipLimits.default).1 = true :=
  (spec_c1_no_escape [⟨"../../etc/passwd", false, 0, 0⟩] ["data"]
    UnzipLimits.default).1
    ⟨⟨"../../etc/passwd", false, 0, 0⟩, List.mem_singleton.2 rfl, Or.inl rfl⟩

/-- C2: extraction streams each file in bounded 64 KiB chunks with a
per-file and a cumulative counter, so no created file ever holds more
than `max_single_file` bytes and the total bytes written never exceed
`max_total_uncompressed`; an entry whose actual decompressed size exceeds
`max_single_file` despite an acceptable declared size fails during
streaming with the per-file guard, and an oversized declared size is
rejected before the destination file is created. -/
theorem spec_c2_streaming_limits (zip : List ZipEntry) (dest : List String)
    (lim : UnzipLimits)
    (hS : lim.max_single_file < U64SIZE - 1)
    (hT : lim.max_total_uncompressed < U64SIZE - 1) :
    (∀ p w, FsOp.createFile p w ∈ (unzip_safely_blocking zip dest lim).2 →
      w ≤ lim.max_single_file) ∧
    writeSum (unzip_safely_blocking zip dest lim).2 ≤
      lim.max_total_uncompressed ∧
    (∀ e : ZipEntry, e.isDir = false →
      isErr (sanitize_zip_entry_path e.name) = false →
      1 ≤ lim.max_files →
      lim.max_single_file ≤ lim.max_total_uncompressed →
      e.declared ≤ lim.max_single_file →
      e.actualSize > lim.max_single_file →
      (unzip_safely_blocking [e] dest lim).1 =
        .error (.exceedsMaxSingleFile e.name)) ∧
    (∀ e : ZipEntry, e.isDir = false →
      isErr (sanitize_zip_entry_path e.name) = false →
      1 ≤ lim.max_files →
      e.declared > lim.max_single_file →
      (unzip_safely_blocking [e] dest lim).1 =
        .error (.entryTooLarge e.name e.declared) ∧
      countFiles (unzip_safely_blocking [e] dest lim).2 = 0) := by
  have hbounds := unzipEntries_write_bounds lim dest hS hT zip 0 0
    [FsOp.mkdir dest] (Nat.zero_le _) (by simp [writeSum])
    (by
      intro p w hw
      simp only [List.mem_singleton] at hw
      cases hw)
  refine ⟨hbounds.1, hbounds.2, ?_, ?_⟩
  · intro e hdir hsan h1 hst hdecl hact
    show (unzipEntries lim dest [e] 0 0 [FsOp.mkdir dest]).1 = _
    rw [unzipEntries]
    rw [if_neg (show ¬ 0 + 1 > lim.max_files by omega)]
    cases hs : sanitize_zip_entry_path e.name with
    | error err => rw [hs] at hsan; cases hsan
    | ok rel =>
      simp only
      rw [if_neg (by simp [is_within_dir_of_sanitized hs dest]),
        if_neg (by simp [hdir]),
        if_neg (show ¬ e.declared > lim.max_single_file by omega)]
      have hr1 : (streamFile lim.max_single_file lim.max_total_uncompressed
          e.actualSize 0 0).1 = .singleExceeded :=
        streamLoop_single_exceeded hS hst e.actualSize e.actualSize 0
          (Nat.le_refl _) (Nat.zero_le _) (by omega)
      rw [hr1]
  · intro e hdir hsan h1 hdecl
    have heq : unzipEntries lim dest [e] 0 0 [FsOp.mkdir dest] =
        (.error (.entryTooLarge e.name e.declared), [FsOp.mkdir dest]) := by
      rw [unzipEntries]
      rw [if_neg (show ¬ 0 + 1 > lim.max_files by omega)]
      cases hs : sanitize_zip_entry_path e.name with
      | error err => rw [hs] at hsan; cases hsan
      | ok rel =>
        simp only
        rw [if_neg (by simp [is_within_dir_of_sanitized hs dest]),
          if_neg (by simp [hdir]), if_pos hdecl]
    constructor
    · show (unzipEntries lim dest [e] 0 0 [FsOp.mkdir dest]).1 = _
      rw [heq]
    · show countFiles (unzipEntries lim dest [e] 0 0 [FsOp.mkdir dest]).2 = 0
      rw [heq]
      rfl

/-- C2 witness: a file whose header declares 10 bytes but whose stream
yields two million fails with the per-file streaming guard under a
one-megabyte single-file limit. -/
theorem spec_c2_witness :
    (unzip_safely_blocking [⟨"big.bin", false, 10, 2000000⟩] ["data"]
      ⟨10, 3000000, 1000000⟩).1 =
      .error (.exceedsMaxSingleFile "big.bin") :=
  (spec_c2_streaming_limits [⟨"big.bin", false, 10, 2000000⟩] ["data"]
    ⟨10, 3000000, 1000000⟩ (by decide) (by decide)).2.2.1
    ⟨"big.bin", false, 10, 2000000⟩ rfl (by decide) (by decide) (by decide)
    (by decide) (by decide)

/-- C8: an archive with more entries than `max_files` always fails, the
destination receives files from at most `max_files` entries, and when the
first `max_files` entries process cleanly the reported failure is
precisely the entry-count error. -/
theorem spec_c8_entry_count (zip : List ZipEntry) (dest : List String)
    (lim : UnzipLimits) (hlen : zip.length > lim.max_files) :
    isErr (unzip_safely_blocking zip dest lim).1 = true ∧
    countFiles (unzip_safely_blocking zip dest lim).2 ≤ lim.max_files ∧
    ((unzip_safely_blocking (zip.take lim.max_files) dest lim).1 = .ok () →
      (unzip_safely_blocking zip dest lim).1 =
        .error (.tooManyFiles lim.max_files)) := by
  refine ⟨?_, ?_, ?_⟩
  · exact unzipEntries_err_of_too_many lim dest zip 0 0 _ (Nat.zero_le _)
      (by omega)
  · have h := unzipEntries_countFiles_le lim dest zip 0 0 [FsOp.mkdir dest]
    have h0 : countFiles [FsOp.mkdir dest] = 0 := rfl
    rw [h0] at h
    exact le_trans h (by omega)
  · intro hok
    exact unzipEntries_count_error lim dest zip 0 0 _ (Nat.zero_le _)
      (by rw [Nat.sub_zero]; exact hok) (by omega)

/-- C8 witness: two entries against a one-entry limit fail with the
entry-count error. -/
theorem spec_c8_witness :
    isErr (unzip_safely_blocking [⟨"a", false, 0, 0⟩, ⟨"b", false, 0, 0⟩]
      ["d"] ⟨1, 100, 100⟩).1 = true ∧
    (unzip_safely_blocking [⟨"a", false, 0, 0⟩, ⟨"b", false, 0, 0⟩]
      ["d"] ⟨1, 100, 100⟩).1 = .error (.tooManyFiles 1) := by
  have h := spec_c8_entry_count [⟨"a", false, 0, 0⟩, ⟨"b", false, 0, 0⟩]
    ["d"] ⟨1, 100, 100⟩ (by decide)
  exact ⟨h.1, h.2.2 (by decide)⟩

theorem reserveSeq_from :
    ∀ (n k : Nat), 1 ≤ k → k + n ≤ U64SIZE →
      (reserveSeq n (some (u64ToString k))).1 = List.range' k n := by
  intro n
  induction n with
  | zero => intro k h1 hle; rfl
  | succ m ih =>
    intro k h1 hle
    have hk : k < U64SIZE := by omega
    have hr : reserve_next_run_id (some (u64ToString k)) =
        (k, u64ToString ((k + 1) % U64SIZE)) := by
      show ((rustParseU64 (rustTrim (u64ToString k))).getD 1,
        u64ToString (((rustParseU64 (rustTrim (u64ToString k))).getD 1 + 1) %
          U64SIZE)) = _
      rw [parse_trim_u64ToString hk]
      rfl
    show (reserve_next_run_id (some (u64ToString k))).1 ::
      (reserveSeq m (some (reserve_next_run_id (some (u64ToString k))).2)).1 =
      List.range' k (m + 1)
    rw [hr]
    cases m with
    | zero => rfl
    | succ j =>
      have hmod : (k + 1) % U64SIZE = k + 1 := Nat.mod_eq_of_lt (by omega)
      rw [hmod, ih (k + 1) (by omega) (by omega)]
      rfl

/-- C3: `reserve_next_run_id` treats an absent or unparsable counter file
as holding 1, writes back `current + 1`, and returns `current`; starting
from no counter file, `n` serialized reservations return exactly
`1, 2, …, n` — strictly increasing, gapless, without repeats. -/
theorem spec_c3_reserve_ids :
    reserve_next_run_id none = (1, u64ToString 2) ∧
    (∀ s : String, rustParseU64 (rustTrim s) = none →
      reserve_next_run_id (some s) = (1, u64ToString 2)) ∧
    (∀ k : Nat, k < U64SIZE →
      reserve_next_run_id (some (u64ToString k)) =
        (k, u64ToString ((k + 1) % U64SIZE))) ∧
    (∀ n : Nat, n < U64SIZE → (reserveSeq n none).1 = List.range' 1 n) := by
  refine ⟨by decide, ?_, ?_, ?_⟩
  · intro s h
    show ((rustParseU64 (rustTrim s)).getD 1,
      u64ToString (((rustParseU64 (rustTrim s)).getD 1 + 1) % U64SIZE)) = _
    rw [h]
    rfl
  · intro k hk
    show ((rustParseU64 (rustTrim (u64ToString k))).getD 1,
      u64ToString (((rustParseU64 (rustTrim (u64ToString k))).getD 1 + 1) %
        U64SIZE)) = _
    rw [parse_trim_u64ToString hk]
    rfl
  · intro n hn
    cases n with
    | zero => rfl
    | succ m =>
      show (reserve_next_run_id none).1 ::
        (reserveSeq m (some (reserve_next_run_id none).2)).1 =
        List.range' 1 (m + 1)
      have hr : reserve_next_run_id none = (1, u64ToString 2) := by decide
      rw [hr]
      cases m with
      | zero => rfl
      | succ j =>
        rw [reserveSeq_from (j + 1) 2 (by omega) (by omega)]
        rfl

/-- C3 witness: three reservations from an empty project directory yield
IDs 1, 2, 3. -/
theorem spec_c3_witness : (reserveSeq 3 none).1 = [1, 2, 3] := by
  rw [spec_c3_reserve_ids.2.2.2 3 (by decide)]
  rfl

/-- C5 (amended): `list_projects` returns every directory entry whose
name is valid UTF-8 — with no check that the name is a valid project
identifier — while `list_run_ids` returns exactly the entries whose names
parse as unsigned 64-bit integers; non-conforming entries are silently
skipped and neither listing errors. -/
theorem spec_c5_listing (ents : List DirEnt) :
    (∀ x : String, x ∈ list_projects ents ↔
      ∃ e ∈ ents, e.isDir = true ∧ e.name = some x) ∧
    (∀ i : Nat, i ∈ list_run_ids ents ↔
      ∃ e ∈ ents, e.isDir = true ∧ ∃ nm, e.name = some nm ∧
        rustParseU64 nm = some i) := by
  constructor
  · intro x
    unfold list_projects
    rw [(List.mergeSort_perm _ _).mem_iff, List.mem_filterMap]
    constructor
    · rintro ⟨e, he, hname⟩
      have hf := List.mem_filter.1 he
      exact ⟨e, hf.1, hf.2, hname⟩
    · rintro ⟨e, he, hdir, hname⟩
      exact ⟨e, List.mem_filter.2 ⟨he, hdir⟩, hname⟩
  · intro i
    unfold list_run_ids
    rw [(List.mergeSort_perm _ _).mem_iff, List.mem_filterMap]
    constructor
    · rintro ⟨e, he, hbind⟩
      have hf := List.mem_filter.1 he
      rcases Option.bind_eq_some.1 hbind with ⟨nm, hnm, hparse⟩
      exact ⟨e, hf.1, hf.2, nm, hnm, hparse⟩
    · rintro ⟨e, he, hdir, nm, hnm, hparse⟩
      refine ⟨e, List.mem_filter.2 ⟨he, hdir⟩, ?_⟩
      rw [hnm]
      exact hparse

/-- C5 counterexample: a directory named `bad name!` — not a valid
project identifier — is still returned by `list_projects`. -/
theorem spec_c5_counterexample :
    list_projects [⟨some "bad name!", true⟩] = ["bad name!"] ∧
    sanitize_name "bad name!" = none := by
  constructor
  · unfold list_projects
    rw [show (([⟨some "bad name!", true⟩] : List DirEnt).filter
        (·.isDir)).filterMap (·.name) = ["bad name!"] from rfl]
    exact List.mergeSort_singleton _
  · decide

/-- C5 witness: the run-ID listing applied at a directory with one
numeric and one junk name. -/
theorem spec_c5_witness :
    7 ∈ list_run_ids [⟨some "7", true⟩, ⟨some "junk", true⟩] :=
  ((spec_c5_listing [⟨some "7", true⟩, ⟨some "junk", true⟩]).2 7).2
    ⟨⟨some "7", true⟩, List.mem_cons_self _ _, rfl, "7", rfl, by decide⟩

/-- C7: serializing a status record and parsing it back gives the
identical record, so writing `status.json` and reading it returns the
same outcome and error text; reading a status for a run with no record —
or an unparsable one — yields `none`, not an error. -/
theorem spec_c7_status_roundtrip :
    (∀ st : RunStatus, statusFromJson (statusToJson st) = some st) ∧
    (∀ (s : Store) (key : String × Nat) (st : RunStatus),
      read_run_status (writeStatus s key st) key = some st) ∧
    (∀ (s : Store) (key : String × Nat),
      getAssoc key s.statuses = none → read_run_status s key = none) ∧
    (∀ (s : Store) (key : String × Nat) (j : Json),
      getAssoc key s.statuses = some j → statusFromJson j = none →
      read_run_status s key = none) := by
  have hrt : ∀ st : RunStatus, statusFromJson (statusToJson st) = some st := by
    intro st
    obtain ⟨stat, err⟩ := st
    cases err <;> rfl
  refine ⟨hrt, ?_, ?_, ?_⟩
  · intro s key st
    unfold read_run_status writeStatus
    rw [getAssoc_setAssoc]
    show statusFromJson (statusToJson st) = some st
    exact hrt st
  · intro s key h
    unfold read_run_status
    rw [h]
    rfl
  · intro s key j hj hn
    unfold read_run_status
    rw [hj]
    show statusFromJson j = none
    exact hn

/-- C7 witness: a concrete failed status round-trips, and an empty store
reads as no status. -/
theorem spec_c7_witness :
    read_run_status (writeStatus Store.empty ("demo", 1)
      ⟨"failed", some "boom"⟩) ("demo", 1) =
      some ⟨"failed", some "boom"⟩ ∧
    read_run_status Store.empty ("demo", 1) = none :=
  ⟨spec_c7_status_roundtrip.2.1 Store.empty ("demo", 1)
      ⟨"failed", some "boom"⟩,
    spec_c7_status_roundtrip.2.2.1 Store.empty ("demo", 1) rfl⟩

theorem mem_ensure_project_dirs (s : Store) (p : String) :
    p ∈ (ensure_project_dirs s p).projectDirs := by
  unfold ensure_project_dirs
  by_cases h : p ∈ s.projectDirs
  · rw [if_pos h]
    exact h
  · rw [if_neg h]
    exact List.mem_cons_self _ _

/-- C4 (amended): an invalid project name is rejected before any state
mutation; a missing `results` field is rejected only after the project
directory has been created, a run ID consumed, and the run's directory
created; malformed metadata is never rejected at all — the upload
proceeds with `Meta::default()` in its place. -/
theorem spec_c4_validation (dataDir : List String) (s : Store)
    (projectRaw : String) (parts : UploadParts)
    (render : Except String Unit) :
    (sanitize_name projectRaw = none →
      upload_run dataDir s projectRaw parts render = (.invalidName, s)) ∧
    (∀ p, sanitize_name projectRaw = some p → parts.results = none →
      (upload_run dataDir s projectRaw parts render).1 = .missingResults ∧
      p ∈ (upload_run dataDir s projectRaw parts render).2.projectDirs ∧
      (p, (reserveOnStore (ensure_project_dirs s p) p).1) ∈
        (upload_run dataDir s projectRaw parts render).2.runDirs) ∧
    (∀ p zipEntries, sanitize_name projectRaw = some p →
      parts.results = some zipEntries → parts.metaField = some none →
      (upload_run dataDir s projectRaw parts render).1 ≠ .invalidName ∧
      (upload_run dataDir s projectRaw parts render).1 ≠ .missingResults ∧
      getAssoc (p, (reserveOnStore (ensure_project_dirs s p) p).1)
        (upload_run dataDir s projectRaw parts render).2.metas =
        some Meta.default) := by
  obtain ⟨res, mf⟩ := parts
  refine ⟨?_, ?_, ?_⟩
  · intro h
    simp only [upload_run, h]
  · intro p hp hres
    simp only at hres
    subst hres
    simp only [upload_run, hp]
    refine ⟨trivial, mem_ensure_project_dirs s p, List.mem_cons_self _ _⟩
  · intro p zipEntries hp hres hmf
    simp only at hres hmf
    subst hres
    subst hmf
    simp only [upload_run, hp]
    cases hu : (unzip_safely_blocking zipEntries
        (dataDir ++ ["projects", p, "runs",
          u64ToString (reserveOnStore (ensure_project_dirs s p) p).1,
          "allure-results"]) UnzipLimits.default).1 with
    | error e =>
      refine ⟨?_, ?_, ?_⟩
      · intro hc
        exact nomatch hc
      · intro hc
        exact nomatch hc
      · exact getAssoc_setAssoc _ _ _
    | ok u =>
      cases render with
      | ok u' =>
        refine ⟨?_, ?_, ?_⟩
        · intro hc
          exact nomatch hc
        · intro hc
          exact nomatch hc
        · exact getAssoc_setAssoc _ _ _
      | error err =>
        refine ⟨?_, ?_, ?_⟩
        · intro hc
          exact nomatch hc
        · intro hc
          exact nomatch hc
        · exact getAssoc_setAssoc _ _ _

/-- C4 counterexample: an upload of project `demo` to an empty store with
the `results` field missing is rejected, yet the run directory for run 1
exists and the project directory was created — the run ID was consumed
before the rejection, contradicting "no state mutation". -/
theorem spec_c4_counterexample :
    (upload_run [] Store.empty "demo" ⟨none, none⟩ (.ok ())).1 =
      UploadOutcome.missingResults ∧
    (upload_run [] Store.empty "demo" ⟨none, none⟩ (.ok ())).2.runDirs =
      [("demo", 1)] ∧
    (upload_run [] Store.empty "demo" ⟨none, none⟩ (.ok ())).2.projectDirs =
      ["demo"] := by
  refine ⟨rfl, rfl, rfl⟩

/-- C4 witness: an invalid project name leaves the store untouched. -/
theorem spec_c4_witness :
    upload_run [] Store.empty "bad name!" ⟨none, none⟩ (.ok ()) =
      (.invalidName, Store.empty) :=
  (spec_c4_validation [] Store.empty "bad name!" ⟨none, none⟩ (.ok ())).1
    (by decide)

/-- C6: the latest-run pointer is advanced to a run exactly when that
run's processing succeeds — on upload, the pointer moves to the new run
ID only when rendering succeeded; on an explicit re-render it moves only
when rendering succeeded and there was either no prior pointer or the
re-rendered run already was the pointer; in every other case (bad
archive, missing field, invalid name, failed renderer, or re-render of an
older run) the pointer file is left unchanged. -/
theorem spec_c6_latest_pointer (dataDir : List String) (s : Store)
    (projectRaw : String) (parts : UploadParts)
    (render : Except String Unit) (runId : Nat) :
    (∀ p id, sanitize_name projectRaw = some p →
      (upload_run dataDir s projectRaw parts render).1 = .success id →
      getAssoc p (upload_run dataDir s projectRaw parts render).2.latests =
        some (u64ToString id)) ∧
    ((∀ id, (upload_run dataDir s projectRaw parts render).1 ≠ .success id) →
      (upload_run dataDir s projectRaw parts render).2.latests = s.latests) ∧
    (∀ p, sanitize_name projectRaw = some p → render = .ok () →
      (read_latest_run_id s p = none ∨ read_latest_run_id s p = some runId) →
      getAssoc p (regenerate_run s projectRaw runId render).2.latests =
        some (u64ToString runId)) ∧
    (∀ p j, sanitize_name projectRaw = some p → render = .ok () →
      read_latest_run_id s p = some j → j ≠ runId →
      (regenerate_run s projectRaw runId render).2.latests = s.latests) ∧
    (∀ err, render = .error err →
      (regenerate_run s projectRaw runId render).2.latests = s.latests) := by
  obtain ⟨res, mf⟩ := parts
  refine ⟨?_, ?_, ?_, ?_, ?_⟩
  · intro p id hp hsucc
    cases res with
    | none =>
      simp only [upload_run, hp] at hsucc
      exact nomatch hsucc
    | some zipEntries =>
      simp only [upload_run, hp] at hsucc ⊢
      cases hu : (unzip_safely_blocking zipEntries
          (dataDir ++ ["projects", p, "runs",
            u64ToString (reserveOnStore (ensure_project_dirs s p) p).1,
            "allure-results"]) UnzipLimits.default).1 with
      | error e =>
        rw [hu] at hsucc
        exact nomatch hsucc
      | ok u =>
        rw [hu] at hsucc
        cases render with
        | error err => exact nomatch hsucc
        | ok u' =>
          have hsucc' : UploadOutcome.success
              ((reserveOnStore (ensure_project_dirs s p) p).1) =
              .success id := hsucc
          injection hsucc' with hid
          subst hid
          exact getAssoc_setAssoc _ _ _
  · intro hne
    cases hsan : sanitize_name projectRaw with
    | none =>
      simp only [upload_run, hsan]
    | some p =>
      cases res with
      | none =>
        simp only [upload_run, hsan]
        rfl
      | some zipEntries =>
        simp only [upload_run, hsan] at hne ⊢
        cases hu : (unzip_safely_blocking zipEntries
            (dataDir ++ ["projects", p, "runs",
              u64ToString (reserveOnStore (ensure_project_dirs s p) p).1,
              "allure-results"]) UnzipLimits.default).1 with
        | error e => rfl
        | ok u =>
          cases render with
          | ok u' =>
            rw [hu] at hne
            exact absurd rfl (hne _)
          | error err => rfl
  · intro p hp hrok hcond
    subst hrok
    simp only [regenerate_run, hp]
    rw [show read_latest_run_id
        (writeStatus s (p, runId) ⟨"success", none⟩) p =
        read_latest_run_id s p from rfl]
    rw [if_pos hcond]
    exact getAssoc_setAssoc _ _ _
  · intro p j hp hrok hlatest hne
    subst hrok
    simp only [regenerate_run, hp]
    rw [show read_latest_run_id
        (writeStatus s (p, runId) ⟨"success", none⟩) p =
        read_latest_run_id s p from rfl]
    rw [if_neg]
    · rfl
    · intro hc
      rcases hc with hc | hc
      · rw [hlatest] at hc
        cases hc
      · rw [hlatest] at hc
        exact hne (Option.some.inj hc)
  · intro err hrender
    subst hrender
    cases hsan : sanitize_name projectRaw with
    | none => simp only [regenerate_run, hsan]
    | some p =>
      simp only [regenerate_run, hsan]
      rfl

/-- C6 witness: the specification's concrete scenario — an upload to
`demo` whose renderer invocation fails allocates run 2 but leaves the
latest pointer file holding `1`. -/
theorem spec_c6_witness :
    (upload_run [] ⟨["demo"], [("demo", "2")], [("demo", "1")],
      [("demo", 1)], [], []⟩ "demo" ⟨some [], none⟩
      (.error "boom")).2.latests = [("demo", "1")] := by
  have hne : ∀ id, (upload_run [] ⟨["demo"], [("demo", "2")],
      [("demo", "1")], [("demo", 1)], [], []⟩ "demo" ⟨some [], none⟩
      (.error "boom")).1 ≠ UploadOutcome.success id := by
    intro id hc
    have hv : (upload_run [] ⟨["demo"], [("demo", "2")], [("demo", "1")],
        [("demo", 1)], [], []⟩ "demo" ⟨some [], none⟩ (.error "boom")).1 =
        UploadOutcome.renderFailed 2 "boom" := by decide
    rw [hv] at hc
    cases hc
  exact (spec_c6_latest_pointer [] ⟨["demo"], [("demo", "2")],
    [("demo", "1")], [("demo", 1)], [], []⟩ "demo" ⟨some [], none⟩
    (.error "boom") 0).2.1 hne

/-- C8 counterexample: with a one-entry limit, a two-entry archive whose
first entry is a traversal aborts with the traversal error of that entry,
not with the entry-count error — the entry-count error is only the
reported failure when the entries before the limit process cleanly. -/
theorem spec_c8_counterexample :
    ([⟨"../x", false, 0, 0⟩, ⟨"b", false, 0, 0⟩] : List ZipEntry).length >
      (1 : Nat) ∧
    (unzip_safely_blocking [⟨"../x", false, 0, 0⟩, ⟨"b", false, 0, 0⟩]
      ["d"] ⟨1, 100, 100⟩).1 = .error .pathTraversal ∧
    ¬ (unzip_safely_blocking [⟨"../x", false, 0, 0⟩, ⟨"b", false, 0, 0⟩]
      ["d"] ⟨1, 100, 100⟩).1 = .error (.tooManyFiles 1) := by
  decide
